import Mathlib

open scoped List

/-!
# Verification of the noun-phrase extraction and merging pipeline

A shallow embedding of the two batch jobs of this repository:

* `scripts/1_extract-noun-phrases.py` (the *Extractor*): per-article
  deduplication of chunker output, per-table aggregation, a cross-table
  combine step, and per-table statistics.
* `scripts/2_combine-noun-phrases.py` (the *Merger*): case-insensitive
  cross-file merge of already-extracted phrase tables.

Python strings are modelled as lists of Unicode code points (`List Char`),
so that every operation is executable in the kernel.  Python `dict`s
(which preserve insertion order) are modelled as association lists, and
pandas operations are modelled at the level the scripts use them:

* `DataFrame.groupby(keys)` (default `sort=True`, `dropna=True`): groups
  appear in ascending key order; rows keep their original relative order
  inside a group; rows whose key contains a null are dropped.
* `DataFrame.sort_values(col, ascending=False)` (via `nargsort`): an
  ascending argsort whose indexer is then reversed.  The argsort uses
  numpy's default quicksort (introsort), whose tie order is unspecified
  above its small-array insertion-sort cutoff; the model determinizes it
  as the stable argsort.  Only consequences insensitive to the tie order
  of equal counts (count-sortedness, being a permutation, per-key
  filtered contents and sums) are read as program properties, plus
  concrete outputs for inputs small enough that the argsort provably is
  insertion sort.
* `pd.concat([])` raises, which is modelled as an `Except.error`.
-/

/-- Python `str`: a sequence of Unicode code points. -/
abbrev Str := List Char

/-- Coerce a Lean string literal into the model. -/
def str (s : String) : Str := s.data

/-- Python `str.lower()` (ASCII case mapping, as used by the scripts). -/
def strLower (s : Str) : Str := s.map Char.toLower

/-- Python `str.strip()`: drop leading and trailing whitespace. -/
def strTrim (s : Str) : Str :=
  ((s.dropWhile Char.isWhitespace).reverse.dropWhile Char.isWhitespace).reverse

/-- Python `str.split()` with no argument: split on whitespace runs,
dropping empty fragments. -/
def splitWs (s : Str) : List Str :=
  (s.splitOnP Char.isWhitespace).filter (fun w => w ≠ [])

/-- Python `sep.join(words)`. -/
def strIntercalate (sep : Str) (l : List Str) : Str :=
  (l.intersperse sep).flatten

/-- Python `" ".join(words)`. -/
def strJoinSpace (l : List Str) : Str := strIntercalate [' '] l

/-- Python `<` on strings: lexicographic comparison of code points. -/
def strLt : Str → Str → Bool
  | [], [] => false
  | [], _ :: _ => true
  | _ :: _, [] => false
  | a :: as, b :: bs => if a < b then true else if b < a then false else strLt as bs

/-- `a ≤ b` on Python strings. -/
def strLe (a b : Str) : Bool := !strLt b a

/-- Lexicographic `≤` on pairs of strings, the order `sorted` and pandas
use for tuple keys. -/
def pairLe (a b : Str × Str) : Bool :=
  strLt a.1 b.1 || (a.1 = b.1 && strLe a.2 b.2)

/-- Sorting by a boolean `≤`, as Python `sorted` does (Timsort is stable;
so is insertion sort). -/
def sortByB {α : Type} (le : α → α → Bool) (l : List α) : List α :=
  List.insertionSort (fun a b => le a b = true) l

/-- `DataFrame.sort_values(col, ascending=False)`: pandas `nargsort`
performs an *ascending* argsort and reverses the resulting indexer.  The
argsort is numpy's default quicksort (introsort): it coincides with a
stable insertion sort below its small-array cutoff but is unstable above
it, where the real tie order is unspecified.  This model determinizes
the argsort as the stable one; theorems about it are read as program
properties only when they are insensitive to the tie order of equal
counts, or when the input is small enough that the argsort provably is
insertion sort. -/
def pdSortCountDesc {α : Type} (count : α → Nat) (l : List α) : List α :=
  (List.insertionSort (fun a b => count a ≤ count b) l).reverse

/-- `", ".join(sorted(set(x)))` — the `csv_source` aggregation used by
both scripts. -/
def joinSources (srcs : List Str) : Str :=
  strIntercalate (str ", ") (sortByB strLe srcs.dedup)

/-! ## Extractor: helper function and per-article / per-table dictionaries -/

/-- `strip_leading_stopwords`, the `while` loop: pop leading words whose
lowercase form is in the stop-word set. -/
def stripWords (sw : List Str) : List Str → List Str
  | [] => []
  | w :: ws => if strLower w ∈ sw then stripWords sw ws else w :: ws

/-- `strip_leading_stopwords(phrase, stop_words)`:
`words = phrase.split()`; pop leading stop words; `" ".join(words)`. -/
def strip_leading_stopwords (sw : List Str) (phrase : Str) : Str :=
  strJoinSpace (stripWords sw (splitWs phrase))

/-- The per-chunk processing in the article loop: `phrase = chunk.text.strip()`,
skip if empty, strip leading stop words, skip if empty, and pair the
surviving phrase with its dedup key `phrase.lower()`. -/
def processPhrase (sw : List Str) (rawChunk : Str) : Option (Str × Str) :=
  if strTrim rawChunk = [] then none
  else if strip_leading_stopwords sw (strTrim rawChunk) = [] then none
  else some (strip_leading_stopwords sw (strTrim rawChunk),
    strLower (strip_leading_stopwords sw (strTrim rawChunk)))

/-- One accumulation step: `(key, canonical text, count)`.  Used both for
per-article entries (count 1 per occurrence) and for folding article
dictionaries into the per-table dictionary (counts carried over). -/
abbrev Entry := Str × Str × Nat

/-- A Python `dict` from phrase key to `(canonical text, count)`,
preserving insertion order. -/
abbrev NPDict := List (Str × Str × Nat)

/-- Association-list lookup (`key in d` / `d[key]`). -/
def alookup {α : Type} : List (Str × α) → Str → Option α
  | [], _ => none
  | (k', v) :: d, k => if k' = k then some v else alookup d k

/-- In-place update `d[key] = v` for a present key: the (unique) entry
with that key is overwritten, every other entry and the order are kept. -/
def areplace {α : Type} : List (Str × α) → Str → α → List (Str × α)
  | [], _, _ => []
  | (k₁, v₁) :: d, k, v =>
      if k₁ = k then (k, v) :: d else (k₁, v₁) :: areplace d k v

/-- The shared upsert of both accumulation loops: if the key is present,
prefer a canonical text that differs from the key (`phrase != phrase_key
and orig == phrase_key`) and add the incoming count; otherwise insert at
the end with the incoming text and count. -/
def dictUpsert (d : NPDict) (k o : Str) (c : Nat) : NPDict :=
  match alookup d k with
  | some (o₀, c₀) => areplace d k (if o ≠ k ∧ o₀ = k then o else o₀, c₀ + c)
  | none => d ++ [(k, o, c)]

/-- Fold a stream of `(key, text, count)` entries into a dictionary.
With counts 1 this is the per-article loop (lines 106–128); applied to
the concatenated article dictionaries it is the per-table aggregation
loop (lines 131–141). -/
def aggEntries (es : List Entry) : NPDict :=
  es.foldl (fun d e => dictUpsert d e.1 e.2.1 e.2.2) []

/-- The entries contributed by one article: each surviving chunk yields
`(key, phrase, 1)`. -/
def occEntries (sw : List Str) (chunks : List Str) : List Entry :=
  (chunks.filterMap (processPhrase sw)).map (fun pk => (pk.2, pk.1, 1))

/-- All noun chunks of one article: the chunker output of every sentence,
in order (`nlp.pipe` preserves order). -/
def articleChunks (chunker : Str → List Str) (sents : List Str) : List Str :=
  sents.flatMap chunker

/-- `article_noun_phrases[article_key]`: the per-article dictionary. -/
def articleDict (chunker : Str → List Str) (sw : List Str) (sents : List Str) : NPDict :=
  aggEntries (occEntries sw (articleChunks chunker sents))

/-- The recorded count for a key (`0` when absent). -/
def keyCount (d : NPDict) (k : Str) : Nat :=
  ((alookup d k).map (fun v => v.2)).getD 0

/-! ## Extractor: full per-table pipeline -/

/-- One row of an input CSV; any field may be null (`NaN`). -/
structure SRow where
  title : Option Str
  date : Option Str
  sentence : Option Str
deriving DecidableEq

/-- A row's `(title, date)` grouping key, or `none` when either component
is null (such rows are dropped by `groupby`, `dropna=True`). -/
def rowKey (r : SRow) : Option (Str × Str) :=
  match r.title, r.date with
  | some t, some d => some (t, d)
  | _, _ => none

/-- The `(title, date)` keys of rows where both are non-null. -/
def articleKeyPairs (rows : List SRow) : List (Str × Str) :=
  rows.filterMap rowKey

/-- `df.groupby([title, date])` group keys: distinct non-null keys in
ascending order (`sort=True`). -/
def articleKeys (rows : List SRow) : List (Str × Str) :=
  sortByB pairLe (articleKeyPairs rows).dedup

/-- The sentences of one article, in original row order, each passed
through `.astype(str).str.strip()`. -/
def sentencesFor (rows : List SRow) (k : Str × Str) : List Str :=
  (rows.filter (fun r => decide (r.title = some k.1 ∧ r.date = some k.2))).map
    (fun r => strTrim (r.sentence.getD []))

/-- `csv_noun_dict`: drop null-sentence rows, group into articles, build
each article's dictionary, then fold all article entries (article order,
then insertion order within an article) into one dictionary. -/
def csvDict (chunker : Str → List Str) (sw : List Str) (rows : List SRow) : NPDict :=
  aggEntries
    (((articleKeys (rows.filter (fun r => r.sentence.isSome))).map
      (fun k => articleDict chunker sw
        (sentencesFor (rows.filter (fun r => r.sentence.isSome)) k))).flatten)

/-- One row of an extracted phrase table (also the Merger's row shape). -/
structure PhraseRow where
  phrase : Str
  pos : Str
  count : Nat
  csvSource : Str
deriving DecidableEq

/-- `csv_df`: materialize the per-table dictionary in insertion order and
sort by count descending. -/
def extractTable (chunker : Str → List Str) (sw : List Str) (name : Str)
    (rows : List SRow) : List PhraseRow :=
  pdSortCountDesc (fun r => r.count)
    ((csvDict chunker sw rows).map (fun e => ⟨e.2.1, str "NOUN_PHRASE", e.2.2, name⟩))

/-- `total_articles`: the number of distinct `(title, date)` groups among
rows with non-null sentence text. -/
def articleCount (rows : List SRow) : Nat :=
  (articleKeys (rows.filter (fun r => r.sentence.isSome))).length

/-- `total_sentences = len(df)` after `df.dropna(subset=[TEXT_COLUMN])`
(lines 85–86): the sentence count reported in the summary output table.
Only null-*sentence* rows are dropped here; the `(title, date)` key is
not consulted. -/
def totalSentences (rows : List SRow) : Nat :=
  (rows.filter (fun r => r.sentence.isSome)).length

/-! ## Extractor: cross-table combine step -/

/-- The group keys of `combined_df.groupby("phrase")`: the distinct
*exact* phrase strings, in ascending order (`sort=True`). -/
def groupPhrases (combined : List PhraseRow) : List Str :=
  sortByB strLe (combined.map (fun r => r.phrase)).dedup

/-- The aggregated row of one exact-phrase group: count sum, source
union, and the constant `pos` re-added after the `agg`. -/
def combineRow (combined : List PhraseRow) (p : Str) : PhraseRow :=
  ⟨p, str "NOUN_PHRASE",
    ((combined.filter (fun r => r.phrase = p)).map (fun r => r.count)).sum,
    joinSources ((combined.filter (fun r => r.phrase = p)).map (fun r => r.csvSource))⟩

/-- `combined_df.groupby("phrase").agg(...)` then `sort_values`: group by
the *exact* canonical phrase string, sum counts, union sources, restore
the constant `pos`, and sort by count descending. -/
def combineAll (dfs : List (List PhraseRow)) : List PhraseRow :=
  pdSortCountDesc (fun r => r.count)
    ((groupPhrases dfs.flatten).map (combineRow dfs.flatten))

/-! ## Merger -/

/-- One input table of the Merger: its file stem, whether it already has a
`csv_source` column, and its rows. -/
structure MTable where
  stem : Str
  hasSource : Bool
  rows : List PhraseRow
deriving DecidableEq

/-- Per-file preparation: `if 'csv_source' not in df.columns:
df['csv_source'] = csv_file.stem`. -/
def prepTable (t : MTable) : List PhraseRow :=
  if t.hasSource then t.rows else t.rows.map (fun r => { r with csvSource := t.stem })

/-- The Merger's dedup key: `(phrase.lower(), pos)`. -/
def mKey (r : PhraseRow) : Str × Str := (strLower r.phrase, r.pos)

/-- The group keys of `groupby(['phrase_lower', 'pos'])`: the distinct
`(phrase.lower(), pos)` pairs, in ascending order (`sort=True`). -/
def mergeKeys (rows : List PhraseRow) : List (Str × Str) :=
  sortByB pairLe (rows.map mKey).dedup

/-- The aggregated row of one `(phrase_lower, pos)` group: the first
row's casing (`'phrase': 'first'`), the summed count, the source union. -/
def mergeRow (rows : List PhraseRow) (k : Str × Str) : PhraseRow :=
  ⟨(((rows.filter (fun r => mKey r = k)).head?).map (fun r => r.phrase)).getD [], k.2,
    ((rows.filter (fun r => mKey r = k)).map (fun r => r.count)).sum,
    joinSources ((rows.filter (fun r => mKey r = k)).map (fun r => r.csvSource))⟩

/-- `groupby(['phrase_lower', 'pos']).agg(...)` then `sort_values`:
distinct keys in ascending order, first row's casing as displayed phrase,
counts summed, sources unioned, then sorted by count descending. -/
def mergeRows (rows : List PhraseRow) : List PhraseRow :=
  pdSortCountDesc (fun r => r.count) ((mergeKeys rows).map (mergeRow rows))

/-- `merge_csvs_by_phrase`: raise if the directory holds no tables; skip
unparseable tables (`none`); `pd.concat` of zero frames raises; otherwise
merge all prepared rows. -/
def merge_csvs_by_phrase (files : List (Option MTable)) : Except Str (List PhraseRow) :=
  if files.isEmpty then Except.error (str "No CSV files found")
  else if (files.filterMap (fun f => f.map prepTable)).isEmpty then
    Except.error (str "No objects to concatenate")
  else Except.ok (mergeRows (files.filterMap (fun f => f.map prepTable)).flatten)

/-- The keys of a dictionary, in insertion order. -/
def keysOf (d : NPDict) : List Str := d.map (fun e => e.1)

/-! ## Further definitions used by the statements -/

/-- The canonical-text candidates recorded for a key, in stream order. -/
def formsFor (es : List Entry) (k : Str) : List Str :=
  (es.filter (fun e => e.1 = k)).map (fun e => e.2.1)

/-- Spec-modelled comparator for the sort step: the specification asks
for a *stable* sort by count descending ("ties keep prior relative
order"), i.e. a stable descending insertion sort. -/
def specStableSortDesc {α : Type} (count : α → Nat) (l : List α) : List α :=
  List.insertionSort (fun a b => count b ≤ count a) l

/-- A chunker that returns each sentence as a single noun chunk. -/
def exChunkerId : Str → List Str := fun s => [s]

/-- A chunker that finds the phrase "the government" in every sentence. -/
def exChunkerGov : Str → List Str := fun _ => [str "the government"]

/-- A one-element stop-word set. -/
def exStops : List Str := [str "the"]

/-- Three sentences of one article. -/
def exSents3 : List Str := [str "s1", str "s2", str "s3"]

/-- Two sentence rows of a single article, yielding the chunks "Accra"
then "Kumasi", each with count 1. -/
def exRowsC7 : List SRow :=
  [⟨some (str "t"), some (str "d"), some (str "Accra")⟩,
   ⟨some (str "t"), some (str "d"), some (str "Kumasi")⟩]

/-- A row whose `title` is null but whose sentence text is present. -/
def exRowBad : SRow := ⟨none, some (str "d"), some (str "x")⟩

/-- Two per-table outputs whose phrases differ only in casing. -/
def exDfsC5 : List (List PhraseRow) :=
  [[⟨str "Accra", str "NOUN_PHRASE", 3, str "a"⟩],
   [⟨str "accra", str "NOUN_PHRASE", 2, str "b"⟩]]

/-- Two Merger input tables: one with a `csv_source` column, one without. -/
def exTablesC6 : List MTable :=
  [⟨str "t1", true, [⟨str "Accra", str "NOUN_PHRASE", 3, str "s1"⟩]⟩,
   ⟨str "t2", false, [⟨str "accra", str "NOUN_PHRASE", 2, str "x"⟩]⟩]

/-- A parseable Merger input table. -/
def exTableC9 : MTable := ⟨str "tbl", true, [⟨str "accra", str "NOUN_PHRASE", 2, str "s"⟩]⟩

/-! ## Dictionary characterization -/

/-- The `(text, count)` pairs of a key's entries, in stream order. -/
def pairsFor (k : Str) (es : List Entry) : List (Str × Nat) :=
  (es.filter (fun e => e.1 = k)).map (fun e => (e.2.1, e.2.2))

/-- The first observed text that differs from the key, or the key itself
when every observed text equals it. -/
def firstDiff (k : Str) (forms : List Str) : Str :=
  ((forms.filter (fun p => p ≠ k)).head?).getD k

/-- Replay of the upsert's effect on a single key's value. -/
def updF (k : Str) : Option (Str × Nat) → List (Str × Nat) → Option (Str × Nat)
  | v, [] => v
  | none, (o, c) :: t => updF k (some (o, c)) t
  | some (o₀, c₀), (o, c) :: t =>
      updF k (some (if o ≠ k ∧ o₀ = k then o else o₀, c₀ + c)) t

theorem areplace_cons_self {α : Type} (d : List (Str × α)) (k : Str) (v₁ v : α) :
    areplace ((k, v₁) :: d) k v = (k, v) :: d := by
  simp [areplace]

theorem areplace_cons_ne {α : Type} (d : List (Str × α)) (k k₁ : Str) (v₁ : α) (v : α)
    (h : k₁ ≠ k) : areplace ((k₁, v₁) :: d) k v = (k₁, v₁) :: areplace d k v := by
  simp [areplace, h]


theorem alookup_areplace_self {α : Type} (d : List (Str × α)) (k : Str) (v w : α)
    (h : alookup d k = some w) : alookup (areplace d k v) k = some v := by
  induction d with
  | nil => simp [alookup] at h
  | cons e d ih =>
    obtain ⟨k₁, v₁⟩ := e
    by_cases hk : k₁ = k
    · subst hk
      rw [areplace_cons_self]
      simp [alookup]
    · rw [areplace_cons_ne _ _ _ _ _ hk]
      simp only [alookup, hk, if_false] at h ⊢
      exact ih h

theorem alookup_areplace_ne {α : Type} (d : List (Str × α)) (k k' : Str) (v : α)
    (h : k' ≠ k) : alookup (areplace d k v) k' = alookup d k' := by
  induction d with
  | nil => simp [areplace]
  | cons e d ih =>
    obtain ⟨k₁, v₁⟩ := e
    by_cases hk : k₁ = k
    · subst hk
      rw [areplace_cons_self]
      simp [alookup, Ne.symm h]
    · rw [areplace_cons_ne _ _ _ _ _ hk]
      by_cases hk' : k₁ = k'
      · simp [alookup, hk']
      · simp [alookup, hk', ih]

theorem alookup_append_of_none {α : Type} (d₁ d₂ : List (Str × α)) (k : Str)
    (h : alookup d₁ k = none) : alookup (d₁ ++ d₂) k = alookup d₂ k := by
  induction d₁ with
  | nil => simp
  | cons e d ih =>
    obtain ⟨k₁, v₁⟩ := e
    by_cases hk : k₁ = k
    · simp [alookup, hk] at h
    · simp only [alookup, hk, if_false] at h
      simpa [alookup, hk] using ih h

theorem alookup_append_ne {α : Type} (d : List (Str × α)) (k k' : Str) (v : α)
    (h : k' ≠ k) : alookup (d ++ [(k, v)]) k' = alookup d k' := by
  induction d with
  | nil => simp [alookup, Ne.symm h]
  | cons e d ih =>
    obtain ⟨k₁, v₁⟩ := e
    by_cases hk : k₁ = k'
    · simp [alookup, hk]
    · simp [alookup, hk, ih]

theorem alookup_dictUpsert_self (d : NPDict) (k o : Str) (c : Nat) :
    alookup (dictUpsert d k o c) k =
      some (match alookup d k with
            | none => (o, c)
            | some (o₀, c₀) => (if o ≠ k ∧ o₀ = k then o else o₀, c₀ + c)) := by
  unfold dictUpsert
  cases h : alookup d k with
  | none =>
    have := alookup_append_of_none d [(k, (o, c))] k h
    simp [h, this, alookup]
  | some v =>
    obtain ⟨o₀, c₀⟩ := v
    simp [h, alookup_areplace_self d k _ _ h]

theorem alookup_dictUpsert_ne (d : NPDict) (k k' o : Str) (c : Nat) (h : k' ≠ k) :
    alookup (dictUpsert d k o c) k' = alookup d k' := by
  unfold dictUpsert
  cases hl : alookup d k with
  | none => simpa using alookup_append_ne d k k' (o, c) h
  | some v =>
    obtain ⟨o₀, c₀⟩ := v
    simpa using alookup_areplace_ne d k k' _ h

theorem aggEntries_go (es : List Entry) (d : NPDict) (k : Str) :
    alookup (es.foldl (fun d e => dictUpsert d e.1 e.2.1 e.2.2) d) k
      = updF k (alookup d k) (pairsFor k es) := by
  induction es generalizing d with
  | nil => simp [pairsFor, updF]
  | cons e es ih =>
    obtain ⟨ke, oe, ce⟩ := e
    by_cases hk : ke = k
    · subst hk
      rw [List.foldl_cons, ih]
      have hself := alookup_dictUpsert_self d ke oe ce
      simp only [hself]
      cases h : alookup d ke with
      | none => simp [pairsFor, h, updF]
      | some v =>
        obtain ⟨o₀, c₀⟩ := v
        simp [pairsFor, h, updF]
    · rw [List.foldl_cons, ih]
      rw [alookup_dictUpsert_ne d ke k oe ce (Ne.symm hk)]
      simp [pairsFor, hk]

theorem updF_some_spec (k : Str) (l : List (Str × Nat)) :
    ∀ (o₀ : Str) (c₀ : Nat),
      updF k (some (o₀, c₀)) l
        = some ((if o₀ = k then firstDiff k (l.map Prod.fst) else o₀),
                c₀ + (l.map Prod.snd).sum) := by
  induction l with
  | nil =>
    intro o₀ c₀
    simp only [updF, firstDiff, List.map_nil, List.filter_nil, List.head?_nil,
      Option.getD_none, List.sum_nil, Nat.add_zero]
    by_cases h : o₀ = k <;> simp [h]
  | cons p t ih =>
    intro o₀ c₀
    obtain ⟨o, c⟩ := p
    rw [updF, ih]
    by_cases h₀ : o₀ = k
    · by_cases h : o = k
      · simp [h₀, h, firstDiff, Nat.add_assoc]
      · simp [h₀, h, firstDiff, Nat.add_assoc]
    · simp [h₀, Nat.add_assoc]

theorem updF_none_spec (k : Str) (l : List (Str × Nat)) :
    updF k none l
      = if l = [] then none
        else some (firstDiff k (l.map Prod.fst), (l.map Prod.snd).sum) := by
  cases l with
  | nil => simp [updF]
  | cons p t =>
    obtain ⟨o, c⟩ := p
    rw [updF, updF_some_spec]
    by_cases h : o = k
    · simp [h, firstDiff]
    · simp [h, firstDiff]

/-- Master characterization of both accumulation loops: the value stored
for a key is the first non-lowercase observed text (or the key itself)
together with the sum of the contributing counts. -/
theorem alookup_aggEntries (es : List Entry) (k : Str) :
    alookup (aggEntries es) k
      = if pairsFor k es = [] then none
        else some (firstDiff k ((pairsFor k es).map Prod.fst),
                   ((pairsFor k es).map Prod.snd).sum) := by
  rw [aggEntries, aggEntries_go es [] k]
  simp only [alookup]
  exact updF_none_spec k (pairsFor k es)

/-! ## Key uniqueness of the dictionaries -/


theorem alookup_eq_none_iff {α : Type} (d : List (Str × α)) (k : Str) :
    alookup d k = none ↔ k ∉ d.map (fun e => e.1) := by
  induction d with
  | nil => simp [alookup]
  | cons e d ih =>
    obtain ⟨k₁, v₁⟩ := e
    by_cases hk : k₁ = k
    · subst hk
      rw [List.map_cons]
      constructor
      · intro h
        rw [alookup, if_pos rfl] at h
        exact absurd h (Option.some_ne_none v₁)
      · intro h
        exact absurd (List.mem_cons_self _ _) h
    · have hk' : ¬ (k = k₁) := fun h => hk h.symm
      rw [List.map_cons, alookup, if_neg hk, ih]
      constructor
      · intro h hmem
        rcases List.mem_cons.mp hmem with h1 | h1
        · exact hk' h1
        · exact h h1
      · intro h hmem
        exact h (List.mem_cons_of_mem _ hmem)

theorem keysOf_areplace (d : NPDict) (k : Str) (v v₀ : Str × Nat)
    (h : alookup d k = some v₀) : keysOf (areplace d k v) = keysOf d := by
  induction d with
  | nil => simp [areplace]
  | cons e d ih =>
    obtain ⟨k₁, v₁⟩ := e
    by_cases hk : k₁ = k
    · subst hk
      rw [areplace_cons_self]
      simp [keysOf]
    · rw [areplace_cons_ne _ _ _ _ _ hk]
      simp only [alookup, hk, if_false] at h
      simp [keysOf] at ih ⊢
      exact ih h

theorem keysOf_dictUpsert_nodup (d : NPDict) (k o : Str) (c : Nat)
    (h : (keysOf d).Nodup) : (keysOf (dictUpsert d k o c)).Nodup := by
  unfold dictUpsert
  cases hl : alookup d k with
  | none =>
    have hk : k ∉ keysOf d := (alookup_eq_none_iff d k).mp hl
    simp only [keysOf, List.map_append, List.map_cons, List.map_nil]
    rw [List.nodup_append]
    refine ⟨h, List.nodup_singleton k, ?_⟩
    simp only [List.disjoint_singleton]
    exact hk
  | some v =>
    obtain ⟨o₀, c₀⟩ := v
    rw [keysOf_areplace d k _ _ hl]
    exact h

theorem keysOf_aggEntries_nodup (es : List Entry) : (keysOf (aggEntries es)).Nodup := by
  have go : ∀ (es : List Entry) (d : NPDict), (keysOf d).Nodup →
      (keysOf (es.foldl (fun d e => dictUpsert d e.1 e.2.1 e.2.2) d)).Nodup := by
    intro es
    induction es with
    | nil => intro d h; exact h
    | cons e es ih =>
      intro d h
      exact ih _ (keysOf_dictUpsert_nodup d e.1 e.2.1 e.2.2 h)
  exact go es [] (by simp [keysOf])

theorem pairsFor_eq_nil_iff (es : List Entry) (k : Str) :
    pairsFor k es = [] ↔ ∀ e ∈ es, e.1 ≠ k := by
  simp [pairsFor, List.filter_eq_nil_iff]

theorem alookup_aggEntries_eq_none_iff (es : List Entry) (k : Str) :
    alookup (aggEntries es) k = none ↔ pairsFor k es = [] := by
  rw [alookup_aggEntries]
  by_cases h : pairsFor k es = [] <;> simp [h]

theorem mem_keysOf_aggEntries (es : List Entry) (k : Str) :
    k ∈ keysOf (aggEntries es) ↔ ∃ e ∈ es, e.1 = k := by
  have h1 : k ∈ keysOf (aggEntries es) ↔ ¬ alookup (aggEntries es) k = none := by
    rw [alookup_eq_none_iff]
    exact not_not.symm
  rw [h1, alookup_aggEntries_eq_none_iff, pairsFor_eq_nil_iff]
  push_neg
  simp

/-! ## Properties of the descending count sort -/

theorem pdSortCountDesc_perm {α : Type} (count : α → Nat) (l : List α) :
    pdSortCountDesc count l ~ l := by
  unfold pdSortCountDesc
  exact (List.reverse_perm _).trans (List.perm_insertionSort _ l)

theorem pdSortCountDesc_sorted {α : Type} (count : α → Nat) (l : List α) :
    (pdSortCountDesc count l).Pairwise (fun a b => count b ≤ count a) := by
  unfold pdSortCountDesc
  rw [List.pairwise_reverse]
  haveI : IsTotal α (fun a b => count a ≤ count b) := ⟨fun a b => Nat.le_total _ _⟩
  haveI : IsTrans α (fun a b => count a ≤ count b) := ⟨fun _ _ _ => Nat.le_trans⟩
  exact List.sorted_insertionSort _ l

/-! ## Generic lemmas about grouping, filtering and summing -/

theorem filter_map_keys_eq_singleton {β κ : Type} [DecidableEq κ]
    (keys : List κ) (hn : keys.Nodup) (f : κ → β) (kf : β → κ)
    (hfk : ∀ k ∈ keys, kf (f k) = k) (k₀ : κ) (hk : k₀ ∈ keys) :
    (keys.map f).filter (fun b => kf b = k₀) = [f k₀] := by
  induction keys with
  | nil => simp at hk
  | cons k t ih =>
    rcases List.mem_cons.mp hk with h1 | h1
    · subst h1
      have hkf : kf (f k₀) = k₀ := hfk k₀ (List.mem_cons_self _ _)
      have hrest : (t.map f).filter (fun b => kf b = k₀) = [] := by
        rw [List.filter_eq_nil_iff]
        intro b hb
        rcases List.mem_map.mp hb with ⟨k', hk', rfl⟩
        have : kf (f k') = k' := hfk k' (List.mem_cons_of_mem _ hk')
        rw [this]
        have hne : k' ≠ k₀ := fun h => ((List.nodup_cons.mp hn).1 (h ▸ hk')).elim
        simpa using hne
      rw [List.map_cons, List.filter_cons]
      simp [hkf, hrest]
    · have hne : k ≠ k₀ := by
        intro h
        exact (List.nodup_cons.mp hn).1 (h ▸ h1)
      have hkf : kf (f k) = k := hfk k (List.mem_cons_self _ _)
      rw [List.map_cons, List.filter_cons]
      have : (decide (kf (f k) = k₀)) = false := by
        rw [hkf]
        simpa using hne
      rw [this]
      exact ih (List.nodup_cons.mp hn).2 (fun k' h => hfk k' (List.mem_cons_of_mem _ h)) h1

theorem perm_filter_eq_singleton {β : Type} (l l' : List β) (p : β → Bool) (a : β)
    (hp : l ~ l') (h : l.filter p = [a]) : l'.filter p = [a] := by
  have := (hp.filter p).symm
  rw [h] at this
  exact List.perm_singleton.mp this

theorem sum_map_add_distrib {κ : Type} (K : List κ) (f₁ f₂ : κ → Nat) :
    (K.map (fun k => f₁ k + f₂ k)).sum = (K.map f₁).sum + (K.map f₂).sum := by
  induction K with
  | nil => simp
  | cons k t ih => simp [ih]; omega

theorem sum_map_ite_mem {κ : Type} [DecidableEq κ] (K : List κ) (hn : K.Nodup)
    (c : κ) (v : Nat) :
    (K.map (fun k => if c = k then v else 0)).sum = if c ∈ K then v else 0 := by
  induction K with
  | nil => simp
  | cons k t ih =>
    rw [List.map_cons, List.sum_cons, ih (List.nodup_cons.mp hn).2]
    by_cases hc : c = k
    · subst hc
      have : c ∉ t := (List.nodup_cons.mp hn).1
      simp [this]
    · simp [hc, List.mem_cons]

/-- Summing a quantity over the groups of a nodup key list equals summing
it over the rows whose key lies in the list. -/
theorem sum_over_groups {β κ : Type} [DecidableEq κ] (K : List κ) (hn : K.Nodup)
    (l : List β) (g : β → κ) (f : β → Nat) :
    (K.map (fun k => ((l.filter (fun x => g x = k)).map f).sum)).sum
      = ((l.filter (fun x => g x ∈ K)).map f).sum := by
  induction l with
  | nil => simp
  | cons x t ih =>
    have hsplit : ∀ k : κ, ((List.filter (fun x => decide (g x = k)) (x :: t)).map f).sum
        = (if g x = k then f x else 0)
          + ((List.filter (fun x => decide (g x = k)) t).map f).sum := by
      intro k
      rw [List.filter_cons]
      by_cases hx : g x = k
      · simp [hx]
      · simp [hx]
    calc (K.map (fun k => ((List.filter (fun x => decide (g x = k)) (x :: t)).map f).sum)).sum
        = (K.map (fun k => (if g x = k then f x else 0)
            + ((List.filter (fun x => decide (g x = k)) t).map f).sum)).sum := by
          congr 1
          exact List.map_congr_left (fun k _ => hsplit k)
      _ = (K.map (fun k => if g x = k then f x else 0)).sum
            + (K.map (fun k => ((List.filter (fun x => decide (g x = k)) t).map f).sum)).sum :=
          sum_map_add_distrib K _ _
      _ = (if g x ∈ K then f x else 0)
            + ((t.filter (fun x => g x ∈ K)).map f).sum := by
          rw [sum_map_ite_mem K hn (g x) (f x), ih]
      _ = ((List.filter (fun x => decide (g x ∈ K)) (x :: t)).map f).sum := by
          rw [List.filter_cons]
          by_cases hx : g x ∈ K
          · simp [hx]
          · simp [hx]

theorem sum_filter_flatten {β : Type} (dfs : List (List β)) (p : β → Bool) (f : β → Nat) :
    ((dfs.flatten.filter p).map f).sum
      = (dfs.map (fun df => ((df.filter p).map f).sum)).sum := by
  induction dfs with
  | nil => simp
  | cons df t ih =>
    rw [List.flatten_cons, List.filter_append, List.map_append, List.sum_append, ih,
      List.map_cons, List.sum_cons]

/-! ## Characterization of the combine and merge outputs -/

theorem groupPhrases_nodup (combined : List PhraseRow) : (groupPhrases combined).Nodup := by
  unfold groupPhrases sortByB
  exact (List.perm_insertionSort _ _).nodup_iff.mpr (List.nodup_dedup _)

theorem mem_groupPhrases (combined : List PhraseRow) (p : Str) :
    p ∈ groupPhrases combined ↔ p ∈ combined.map (fun r => r.phrase) := by
  unfold groupPhrases sortByB
  rw [(List.perm_insertionSort _ _).mem_iff, List.mem_dedup]

theorem mergeKeys_nodup (rows : List PhraseRow) : (mergeKeys rows).Nodup := by
  unfold mergeKeys sortByB
  exact (List.perm_insertionSort _ _).nodup_iff.mpr (List.nodup_dedup _)

theorem mem_mergeKeys (rows : List PhraseRow) (k : Str × Str) :
    k ∈ mergeKeys rows ↔ k ∈ rows.map mKey := by
  unfold mergeKeys sortByB
  rw [(List.perm_insertionSort _ _).mem_iff, List.mem_dedup]

/-- Every present key's group is non-empty, and its first row carries the
key. -/
theorem mergeGroup_head (rows : List PhraseRow) (k : Str × Str)
    (hk : k ∈ rows.map mKey) :
    ∃ r₀, (rows.filter (fun r => mKey r = k)).head? = some r₀ ∧ mKey r₀ = k := by
  rcases List.mem_map.mp hk with ⟨r, hr, hrk⟩
  have hmem : r ∈ rows.filter (fun r => mKey r = k) :=
    List.mem_filter.mpr ⟨hr, by simpa using hrk⟩
  cases hg : rows.filter (fun r => mKey r = k) with
  | nil => rw [hg] at hmem; simp at hmem
  | cons r₀ g' =>
    refine ⟨r₀, by simp, ?_⟩
    have : r₀ ∈ rows.filter (fun r => mKey r = k) := by rw [hg]; exact List.mem_cons_self _ _
    simpa using (List.mem_filter.mp this).2

theorem mKey_mergeRow (rows : List PhraseRow) (k : Str × Str)
    (hk : k ∈ rows.map mKey) : mKey (mergeRow rows k) = k := by
  rcases mergeGroup_head rows k hk with ⟨r₀, hh, hr₀⟩
  have hphrase : (mergeRow rows k).phrase = r₀.phrase := by
    simp only [mergeRow]
    rw [hh]
    rfl
  subst hr₀
  show (strLower (mergeRow rows (mKey r₀)).phrase, (mergeRow rows (mKey r₀)).pos) = mKey r₀
  rw [hphrase]
  exact rfl

/-- The combined output contains exactly one row per distinct exact
phrase: filtering it by that phrase yields that row alone. -/
theorem combineAll_filter_eq (dfs : List (List PhraseRow)) (p : Str)
    (hp : p ∈ dfs.flatten.map (fun r => r.phrase)) :
    (combineAll dfs).filter (fun r => r.phrase = p) = [combineRow dfs.flatten p] := by
  unfold combineAll
  refine perm_filter_eq_singleton
    ((groupPhrases dfs.flatten).map (combineRow dfs.flatten)) _ _ _
    (pdSortCountDesc_perm (fun r => r.count) _).symm ?_
  exact filter_map_keys_eq_singleton (groupPhrases dfs.flatten) (groupPhrases_nodup _)
    (combineRow dfs.flatten) (fun r => r.phrase) (fun k _ => rfl) p
    ((mem_groupPhrases _ p).mpr hp)

/-- The merged output contains exactly one row per distinct
`(phrase_lower, pos)` key: filtering it by that key yields that row alone. -/
theorem mergeRows_filter_eq (rows : List PhraseRow) (k : Str × Str)
    (hk : k ∈ rows.map mKey) :
    (mergeRows rows).filter (fun r => mKey r = k) = [mergeRow rows k] := by
  unfold mergeRows
  refine perm_filter_eq_singleton
    ((mergeKeys rows).map (mergeRow rows)) _ _ _
    (pdSortCountDesc_perm (fun r => r.count) _).symm ?_
  exact filter_map_keys_eq_singleton (mergeKeys rows) (mergeKeys_nodup _)
    (mergeRow rows) mKey (fun k' hk' => mKey_mergeRow rows k' ((mem_mergeKeys rows k').mp hk'))
    k ((mem_mergeKeys rows k).mpr hk)

/-! ## Count conservation through the combine and merge steps -/

theorem combine_sum_conservation (dfs : List (List PhraseRow)) (k : Str) :
    (((combineAll dfs).filter (fun r => strLower r.phrase = k)).map (fun r => r.count)).sum
      = ((dfs.flatten.filter (fun r => strLower r.phrase = k)).map (fun r => r.count)).sum := by
  have hperm : (combineAll dfs).filter (fun r => decide (strLower r.phrase = k))
      ~ ((groupPhrases dfs.flatten).map (combineRow dfs.flatten)).filter
          (fun r => decide (strLower r.phrase = k)) := by
    unfold combineAll
    exact (pdSortCountDesc_perm _ _).filter _
  rw [(hperm.map (fun r => r.count)).sum_eq, List.filter_map, List.map_map]
  have hq : (groupPhrases dfs.flatten).filter
        ((fun r => decide (strLower r.phrase = k)) ∘ combineRow dfs.flatten)
      = (groupPhrases dfs.flatten).filter (fun p => decide (strLower p = k)) :=
    List.filter_congr (fun p _ => rfl)
  rw [hq]
  have hmapf : ((groupPhrases dfs.flatten).filter (fun p => decide (strLower p = k))).map
        ((fun r => r.count) ∘ combineRow dfs.flatten)
      = ((groupPhrases dfs.flatten).filter (fun p => decide (strLower p = k))).map
        (fun p => ((dfs.flatten.filter (fun r => r.phrase = p)).map (fun r => r.count)).sum) :=
    List.map_congr_left (fun p _ => rfl)
  rw [hmapf]
  rw [sum_over_groups ((groupPhrases dfs.flatten).filter (fun p => decide (strLower p = k)))
    ((groupPhrases_nodup dfs.flatten).filter _) dfs.flatten (fun r => r.phrase)
    (fun r => r.count)]
  apply congrArg
  apply congrArg
  apply List.filter_congr
  intro x hx
  have hxk : x.phrase ∈ groupPhrases dfs.flatten :=
    (mem_groupPhrases _ _).mpr (List.mem_map.mpr ⟨x, hx, rfl⟩)
  apply decide_eq_decide.mpr
  constructor
  · intro hmem
    simpa using (List.mem_filter.mp hmem).2
  · intro hk
    exact List.mem_filter.mpr ⟨hxk, by simpa using hk⟩

theorem merge_sum_conservation (rows : List PhraseRow) (k : Str) :
    (((mergeRows rows).filter (fun r => strLower r.phrase = k)).map (fun r => r.count)).sum
      = ((rows.filter (fun r => strLower r.phrase = k)).map (fun r => r.count)).sum := by
  have hperm : (mergeRows rows).filter (fun r => decide (strLower r.phrase = k))
      ~ ((mergeKeys rows).map (mergeRow rows)).filter
          (fun r => decide (strLower r.phrase = k)) := by
    unfold mergeRows
    exact (pdSortCountDesc_perm _ _).filter _
  rw [(hperm.map (fun r => r.count)).sum_eq, List.filter_map, List.map_map]
  have hq : (mergeKeys rows).filter
        ((fun r => decide (strLower r.phrase = k)) ∘ mergeRow rows)
      = (mergeKeys rows).filter (fun k' => decide (k'.1 = k)) := by
    apply List.filter_congr
    intro k' hk'
    have h1 : strLower (mergeRow rows k').phrase = k'.1 :=
      congrArg Prod.fst (mKey_mergeRow rows k' ((mem_mergeKeys rows k').mp hk'))
    show decide (strLower (mergeRow rows k').phrase = k) = decide (k'.1 = k)
    rw [h1]
  rw [hq]
  have hmapf : ((mergeKeys rows).filter (fun k' => decide (k'.1 = k))).map
        ((fun r => r.count) ∘ mergeRow rows)
      = ((mergeKeys rows).filter (fun k' => decide (k'.1 = k))).map
        (fun k' => ((rows.filter (fun r => mKey r = k')).map (fun r => r.count)).sum) :=
    List.map_congr_left (fun k' _ => rfl)
  rw [hmapf]
  rw [sum_over_groups ((mergeKeys rows).filter (fun k' => decide (k'.1 = k)))
    ((mergeKeys_nodup rows).filter _) rows mKey (fun r => r.count)]
  apply congrArg
  apply congrArg
  apply List.filter_congr
  intro x hx
  have hxk : mKey x ∈ mergeKeys rows :=
    (mem_mergeKeys _ _).mpr (List.mem_map.mpr ⟨x, hx, rfl⟩)
  apply decide_eq_decide.mpr
  constructor
  · intro hmem
    have h2 : (mKey x).1 = k := by simpa using (List.mem_filter.mp hmem).2
    exact h2
  · intro hk
    refine List.mem_filter.mpr ⟨hxk, ?_⟩
    show decide ((mKey x).1 = k) = true
    simpa using hk

/-! ## Remaining bookkeeping lemmas -/

theorem keyCount_aggEntries (es : List Entry) (k : Str) :
    keyCount (aggEntries es) k
      = ((es.filter (fun e => e.1 = k)).map (fun e => e.2.2)).sum := by
  unfold keyCount
  rw [alookup_aggEntries]
  by_cases h : pairsFor k es = []
  · rw [if_pos h]
    have hf : es.filter (fun e => e.1 = k) = [] := by
      have h2 := (pairsFor_eq_nil_iff es k).mp h
      rw [List.filter_eq_nil_iff]
      intro e he
      simpa using h2 e he
    rw [hf]
    simp
  · rw [if_neg h]
    show ((pairsFor k es).map Prod.snd).sum = _
    unfold pairsFor
    rw [List.map_map]
    rfl

theorem sum_map_one {β : Type} (l : List β) : (l.map (fun _ => (1 : Nat))).sum = l.length := by
  induction l with
  | nil => rfl
  | cons x t ih =>
    simp [ih]
    omega

/-- The `while` loop of `strip_leading_stopwords` removes exactly the
maximal leading run of stop words. -/
theorem stripWords_spec (sw : List Str) (ws : List Str) :
    ∃ pre rest, ws = pre ++ rest
      ∧ (∀ w ∈ pre, strLower w ∈ sw)
      ∧ (∀ w, rest.head? = some w → strLower w ∉ sw)
      ∧ stripWords sw ws = rest := by
  induction ws with
  | nil => exact ⟨[], [], rfl, by simp, by simp, rfl⟩
  | cons w ws ih =>
    by_cases hw : strLower w ∈ sw
    · rcases ih with ⟨pre, rest, heq, hpre, hhead, hstrip⟩
      refine ⟨w :: pre, rest, by rw [List.cons_append, heq], ?_, hhead, ?_⟩
      · intro w' hw'
        rcases List.mem_cons.mp hw' with h1 | h1
        · rw [h1]; exact hw
        · exact hpre w' h1
      · unfold stripWords
        rw [if_pos hw]
        exact hstrip
    · refine ⟨[], w :: ws, rfl, by simp, ?_, ?_⟩
      · intro w' h1
        have : w' = w := by simpa using h1.symm
        rw [this]
        exact hw
      · unfold stripWords
        rw [if_neg hw]

theorem rowKey_eq_none (r : SRow) (h : r.title = none ∨ r.date = none) :
    rowKey r = none := by
  unfold rowKey
  rcases h with h | h
  · rw [h]
  · rw [h]
    cases ht : r.title <;> rfl

theorem filter_append_middle {β : Type} (p : β → Bool) (l₁ l₂ : List β) (r : β)
    (hr : p r = false) : (l₁ ++ r :: l₂).filter p = (l₁ ++ l₂).filter p := by
  rw [List.filter_append, List.filter_append, List.filter_cons, hr]
  simp

theorem filterMap_append_middle {β γ : Type} (f : β → Option γ) (l₁ l₂ : List β) (r : β)
    (hr : f r = none) : (l₁ ++ r :: l₂).filterMap f = (l₁ ++ l₂).filterMap f := by
  rw [List.filterMap_append, List.filterMap_append, List.filterMap_cons, hr]


/-! ## The claims -/

/-- C1: in the per-article deduplicator, the count recorded for a
PhraseKey equals the total number of chunk occurrences mapping to that
key across all of the article's sentences — each occurrence increments
the count by 1; in particular a phrase appearing once in each of 3
sentences of one article yields count 3 for its key, not 1. -/
theorem extractor_per_article_count_fidelity :
    (∀ (chunker : Str → List Str) (sw : List Str) (sents : List Str) (k : Str),
        keyCount (articleDict chunker sw sents) k
          = (((articleChunks chunker sents).filterMap (processPhrase sw)).filter
              (fun pr => pr.2 = k)).length)
    ∧ keyCount (articleDict exChunkerGov exStops exSents3) (str "government") = 3 := by
  constructor
  · intro chunker sw sents k
    show keyCount (aggEntries (occEntries sw (articleChunks chunker sents))) k = _
    rw [keyCount_aggEntries]
    unfold occEntries
    rw [List.filter_map, List.map_map]
    rw [show ((fun e : Entry => e.2.2) ∘ (fun pk : Str × Str => ((pk.2, pk.1, 1) : Entry)))
        = (fun _ : Str × Str => (1 : Nat)) from rfl]
    rw [show ((fun e : Entry => decide (e.1 = k)) ∘ (fun pk : Str × Str => ((pk.2, pk.1, 1) : Entry)))
        = (fun pr : Str × Str => decide (pr.2 = k)) from rfl]
    exact sum_map_one _
  · decide

/-- C2: occurrences with the same lowercase-and-stop-stripped form are
aggregated into exactly one record whose count is the sum of the
contributing counts, independently of processing order — per table in
the Extractor (the entry-stream fold) and cross-table in the Merger
(the `(phrase_lower, pos)` groupby). -/
theorem idempotent_dedup_key_aggregation :
    (∀ es : List Entry, (keysOf (aggEntries es)).Nodup)
    ∧ (∀ (es : List Entry) (k : Str),
        keyCount (aggEntries es) k
          = ((es.filter (fun e => e.1 = k)).map (fun e => e.2.2)).sum)
    ∧ (∀ (es es' : List Entry) (k : Str), es ~ es' →
        keyCount (aggEntries es) k = keyCount (aggEntries es') k)
    ∧ (∀ (rows : List PhraseRow) (k : Str × Str), k ∈ rows.map mKey →
        (mergeRows rows).filter (fun r => mKey r = k) = [mergeRow rows k]
          ∧ (mergeRow rows k).count
              = ((rows.filter (fun r => mKey r = k)).map (fun r => r.count)).sum)
    ∧ (∀ (rows rows' : List PhraseRow) (k : Str × Str), rows ~ rows' →
        ((rows.filter (fun r => mKey r = k)).map (fun r => r.count)).sum
          = ((rows'.filter (fun r => mKey r = k)).map (fun r => r.count)).sum) := by
  refine ⟨keysOf_aggEntries_nodup, keyCount_aggEntries, ?_, ?_, ?_⟩
  · intro es es' k hp
    rw [keyCount_aggEntries, keyCount_aggEntries]
    exact ((hp.filter _).map _).sum_eq
  · intro rows k hk
    exact ⟨mergeRows_filter_eq rows k hk, rfl⟩
  · intro rows rows' k hp
    exact ((hp.filter _).map _).sum_eq

/-- C2 witness: a two-entry stream aggregated in either order gives the
same count, and a concrete two-row merge yields one record with the
summed count. -/
theorem idempotent_dedup_key_aggregation_witness :
    keyCount (aggEntries [(str "a", str "a", 1), (str "b", str "b", 2)]) (str "a")
      = keyCount (aggEntries [(str "b", str "b", 2), (str "a", str "a", 1)]) (str "a")
    ∧ ((mergeRows [⟨str "Accra", str "NOUN_PHRASE", 3, str "a"⟩,
          ⟨str "accra", str "NOUN_PHRASE", 2, str "b"⟩]).filter
            (fun r => mKey r = (str "accra", str "NOUN_PHRASE"))
          = [mergeRow [⟨str "Accra", str "NOUN_PHRASE", 3, str "a"⟩,
              ⟨str "accra", str "NOUN_PHRASE", 2, str "b"⟩]
              (str "accra", str "NOUN_PHRASE")]
        ∧ (mergeRow [⟨str "Accra", str "NOUN_PHRASE", 3, str "a"⟩,
            ⟨str "accra", str "NOUN_PHRASE", 2, str "b"⟩]
            (str "accra", str "NOUN_PHRASE")).count
          = (([(⟨str "Accra", str "NOUN_PHRASE", 3, str "a"⟩ : PhraseRow),
              ⟨str "accra", str "NOUN_PHRASE", 2, str "b"⟩].filter
                (fun r => mKey r = (str "accra", str "NOUN_PHRASE"))).map
                (fun r => r.count)).sum)
    ∧ (([(⟨str "Accra", str "NOUN_PHRASE", 3, str "a"⟩ : PhraseRow),
          ⟨str "accra", str "NOUN_PHRASE", 2, str "b"⟩].filter
            (fun r => mKey r = (str "accra", str "NOUN_PHRASE"))).map
            (fun r => r.count)).sum
        = (([(⟨str "accra", str "NOUN_PHRASE", 2, str "b"⟩ : PhraseRow),
            ⟨str "Accra", str "NOUN_PHRASE", 3, str "a"⟩].filter
              (fun r => mKey r = (str "accra", str "NOUN_PHRASE"))).map
              (fun r => r.count)).sum :=
  ⟨idempotent_dedup_key_aggregation.2.2.1
      [(str "a", str "a", 1), (str "b", str "b", 2)]
      [(str "b", str "b", 2), (str "a", str "a", 1)] (str "a") (by decide),
   idempotent_dedup_key_aggregation.2.2.2.1
      [⟨str "Accra", str "NOUN_PHRASE", 3, str "a"⟩,
       ⟨str "accra", str "NOUN_PHRASE", 2, str "b"⟩]
      (str "accra", str "NOUN_PHRASE") (by decide),
   idempotent_dedup_key_aggregation.2.2.2.2
      [⟨str "Accra", str "NOUN_PHRASE", 3, str "a"⟩,
       ⟨str "accra", str "NOUN_PHRASE", 2, str "b"⟩]
      [⟨str "accra", str "NOUN_PHRASE", 2, str "b"⟩,
       ⟨str "Accra", str "NOUN_PHRASE", 3, str "a"⟩]
      (str "accra", str "NOUN_PHRASE") (by decide)⟩

/-- C3: for every PhraseKey, the total occurrence count in the
Extractor's combined output and in the Merger's merged output equals the
sum of the counts recorded for that key across the contributing
per-table outputs — neither aggregation stage creates or loses
occurrences. -/
theorem cross_table_count_conservation :
    (∀ (dfs : List (List PhraseRow)) (k : Str),
        (((combineAll dfs).filter (fun r => strLower r.phrase = k)).map
            (fun r => r.count)).sum
          = (dfs.map (fun df =>
              ((df.filter (fun r => strLower r.phrase = k)).map (fun r => r.count)).sum)).sum)
    ∧ (∀ (tables : List MTable) (k : Str),
        (((mergeRows (tables.map prepTable).flatten).filter
            (fun r => strLower r.phrase = k)).map (fun r => r.count)).sum
          = ((tables.map prepTable).map (fun df =>
              ((df.filter (fun r => strLower r.phrase = k)).map (fun r => r.count)).sum)).sum) := by
  constructor
  · intro dfs k
    rw [combine_sum_conservation]
    exact sum_filter_flatten dfs _ _
  · intro tables k
    rw [merge_sum_conservation]
    exact sum_filter_flatten (tables.map prepTable) _ _

/-- C4: at the per-article and per-table scopes, whenever some observed
canonical-text candidate for a key differs from the all-lowercase key,
the stored canonical text differs from the key and is the *first* such
candidate in scope order; e.g. article entries "Accra" (count 3) and
"accra" (count 2) merge to a record displaying "Accra" with count 5. -/
theorem canonical_casing_preference :
    (∀ (chunker : Str → List Str) (sw : List Str) (sents : List Str) (k o : Str) (c : Nat),
        alookup (articleDict chunker sw sents) k = some (o, c) →
        (∃ p ∈ formsFor (occEntries sw (articleChunks chunker sents)) k, p ≠ k) →
        o ≠ k ∧ ((formsFor (occEntries sw (articleChunks chunker sents)) k).filter
            (fun q => q ≠ k)).head? = some o)
    ∧ (∀ (es : List Entry) (k o : Str) (c : Nat),
        alookup (aggEntries es) k = some (o, c) →
        (∃ p ∈ formsFor es k, p ≠ k) →
        o ≠ k ∧ ((formsFor es k).filter (fun q => q ≠ k)).head? = some o)
    ∧ alookup (aggEntries [(str "accra", str "Accra", 3), (str "accra", str "accra", 2)])
        (str "accra") = some (str "Accra", 5) := by
  have hmain : ∀ (es : List Entry) (k o : Str) (c : Nat),
      alookup (aggEntries es) k = some (o, c) →
      (∃ p ∈ formsFor es k, p ≠ k) →
      o ≠ k ∧ ((formsFor es k).filter (fun q => q ≠ k)).head? = some o := by
    intro es k o c h hex
    have hchar := alookup_aggEntries es k
    rw [h] at hchar
    by_cases hp : pairsFor k es = []
    · rw [if_pos hp] at hchar
      exact absurd hchar (by simp)
    · rw [if_neg hp] at hchar
      have ho : o = firstDiff k ((pairsFor k es).map Prod.fst) :=
        congrArg Prod.fst (Option.some.inj hchar)
      have hforms : (pairsFor k es).map Prod.fst = formsFor es k := by
        unfold pairsFor formsFor
        rw [List.map_map]
        rfl
      rw [hforms] at ho
      rcases hex with ⟨p, hpmem, hpne⟩
      have hfmem : p ∈ (formsFor es k).filter (fun q => q ≠ k) :=
        List.mem_filter.mpr ⟨hpmem, by simpa using hpne⟩
      cases hfl : (formsFor es k).filter (fun q => q ≠ k) with
      | nil =>
        rw [hfl] at hfmem
        simp at hfmem
      | cons f t =>
        have hfirst : firstDiff k (formsFor es k) = f := by
          unfold firstDiff
          rw [hfl]
          rfl
        have hfne : f ≠ k := by
          have hf : f ∈ (formsFor es k).filter (fun q => q ≠ k) := by
            rw [hfl]
            exact List.mem_cons_self _ _
          simpa using (List.mem_filter.mp hf).2
        rw [ho, hfirst]
        exact ⟨hfne, rfl⟩
  exact ⟨fun chunker sw sents => hmain _, hmain, by decide⟩

/-- C4 witness: the "Accra"/"accra" tie resolves to the first uppercase
form and the canonical text is not the lowercase key. -/
theorem canonical_casing_preference_witness :
    str "Accra" ≠ str "accra"
    ∧ ((formsFor [(str "accra", str "Accra", 3), (str "accra", str "accra", 2)]
        (str "accra")).filter (fun q => q ≠ str "accra")).head? = some (str "Accra") :=
  canonical_casing_preference.2.1
    [(str "accra", str "Accra", 3), (str "accra", str "accra", 2)]
    (str "accra") (str "Accra") 5 (by decide) ⟨str "Accra", by decide, by decide⟩

/-- C5: the Extractor's Cross-Table Combiner groups by the exact
canonical `phrase` string (no lowercasing): for every exact phrase
present, the combined output contains exactly one row for it, with the
counts summed and the deduplicated sorted comma-space-joined sources;
hence rows whose phrases differ only in casing stay separate. -/
theorem combiner_groups_by_exact_phrase :
    ∀ (dfs : List (List PhraseRow)) (p : Str), p ∈ dfs.flatten.map (fun r => r.phrase) →
      (combineAll dfs).filter (fun r => r.phrase = p)
        = [⟨p, str "NOUN_PHRASE",
            ((dfs.flatten.filter (fun r => r.phrase = p)).map (fun r => r.count)).sum,
            joinSources ((dfs.flatten.filter (fun r => r.phrase = p)).map
              (fun r => r.csvSource))⟩] :=
  fun dfs p hp => combineAll_filter_eq dfs p hp

/-- C5 witness: "Accra" (count 3) and "accra" (count 2) from two tables
remain two distinct rows of the combined output. -/
theorem combiner_groups_by_exact_phrase_witness :
    (combineAll exDfsC5).filter (fun r => r.phrase = str "Accra")
        = [⟨str "Accra", str "NOUN_PHRASE",
            ((exDfsC5.flatten.filter (fun r => r.phrase = str "Accra")).map
              (fun r => r.count)).sum,
            joinSources ((exDfsC5.flatten.filter (fun r => r.phrase = str "Accra")).map
              (fun r => r.csvSource))⟩]
    ∧ (combineAll exDfsC5).filter (fun r => r.phrase = str "accra")
        = [⟨str "accra", str "NOUN_PHRASE",
            ((exDfsC5.flatten.filter (fun r => r.phrase = str "accra")).map
              (fun r => r.count)).sum,
            joinSources ((exDfsC5.flatten.filter (fun r => r.phrase = str "accra")).map
              (fun r => r.csvSource))⟩] :=
  ⟨combiner_groups_by_exact_phrase exDfsC5 (str "Accra") (by decide),
   combiner_groups_by_exact_phrase exDfsC5 (str "accra") (by decide)⟩

/-- C6: the Merger merges exactly the rows agreeing on
`(phrase.lower(), pos)`: each present key yields exactly one output row,
whose displayed phrase is the first-encountered row's original casing in
table-then-row order, whose count is the group sum and whose sources are
the deduplicated sorted comma-space join; every output row's key is a
present key; and a table lacking `csv_source` has it defaulted to the
table's stem. -/
theorem merger_groups_by_lower_phrase_and_pos :
    (∀ (tables : List MTable) (k : Str × Str),
        k ∈ ((tables.map prepTable).flatten).map mKey →
        ∃ r₀, (((tables.map prepTable).flatten).filter (fun r => mKey r = k)).head? = some r₀
          ∧ (mergeRows (tables.map prepTable).flatten).filter (fun r => mKey r = k)
            = [⟨r₀.phrase, k.2,
                ((((tables.map prepTable).flatten).filter (fun r => mKey r = k)).map
                  (fun r => r.count)).sum,
                joinSources ((((tables.map prepTable).flatten).filter
                  (fun r => mKey r = k)).map (fun r => r.csvSource))⟩])
    ∧ (∀ (rows : List PhraseRow) (r : PhraseRow), r ∈ mergeRows rows →
        mKey r ∈ rows.map mKey)
    ∧ (∀ t : MTable, t.hasSource = false →
        prepTable t = t.rows.map (fun r => { r with csvSource := t.stem })) := by
  refine ⟨?_, ?_, ?_⟩
  · intro tables k hk
    obtain ⟨r₀, hh, _⟩ := mergeGroup_head ((tables.map prepTable).flatten) k hk
    refine ⟨r₀, hh, ?_⟩
    have hrow : mergeRow ((tables.map prepTable).flatten) k
        = ⟨r₀.phrase, k.2,
            ((((tables.map prepTable).flatten).filter (fun r => mKey r = k)).map
              (fun r => r.count)).sum,
            joinSources ((((tables.map prepTable).flatten).filter
              (fun r => mKey r = k)).map (fun r => r.csvSource))⟩ := by
      unfold mergeRow
      rw [hh]
      rfl
    rw [mergeRows_filter_eq _ k hk, hrow]
  · intro rows r hr
    unfold mergeRows at hr
    have hmem : r ∈ (mergeKeys rows).map (mergeRow rows) :=
      (pdSortCountDesc_perm _ _).mem_iff.mp hr
    rcases List.mem_map.mp hmem with ⟨k', hk', rfl⟩
    rw [mKey_mergeRow rows k' ((mem_mergeKeys rows k').mp hk')]
    exact (mem_mergeKeys rows k').mp hk'
  · intro t ht
    unfold prepTable
    rw [ht]
    rfl

/-- C6 witness: the key ("accra", "NOUN_PHRASE") occurring in two tables
(one of which lacks a source column) yields one merged record headed by
the first-encountered casing. -/
theorem merger_groups_by_lower_phrase_and_pos_witness :
    ∃ r₀, (((exTablesC6.map prepTable).flatten).filter
        (fun r => mKey r = (str "accra", str "NOUN_PHRASE"))).head? = some r₀
      ∧ (mergeRows (exTablesC6.map prepTable).flatten).filter
          (fun r => mKey r = (str "accra", str "NOUN_PHRASE"))
        = [⟨r₀.phrase, (str "accra", str "NOUN_PHRASE").2,
            ((((exTablesC6.map prepTable).flatten).filter
              (fun r => mKey r = (str "accra", str "NOUN_PHRASE"))).map
              (fun r => r.count)).sum,
            joinSources ((((exTablesC6.map prepTable).flatten).filter
              (fun r => mKey r = (str "accra", str "NOUN_PHRASE"))).map
              (fun r => r.csvSource))⟩] :=
  merger_groups_by_lower_phrase_and_pos.1 exTablesC6
    (str "accra", str "NOUN_PHRASE") (by decide)

/-- C7 counterexample: the claim says the per-table sort is *stable*
(ties keep prior relative order).  On an article producing "Accra" then
"Kumasi", each with count 1, the per-table output differs from a stable
descending sort of the unsorted rows: `sort_values(ascending=False)`
reverses the ascending argsort's indexer, and on this 2-row input the
argsort provably is numpy's small-array insertion sort, so the tied rows
come out as [Kumasi, Accra] rather than [Accra, Kumasi]. -/
theorem per_table_sort_stability_counterexample :
    extractTable exChunkerId [] (str "src") exRowsC7
      ≠ specStableSortDesc (fun r => r.count)
          ((csvDict exChunkerId [] exRowsC7).map
            (fun e => ⟨e.2.1, str "NOUN_PHRASE", e.2.2, str "src"⟩)) := by
  decide

/-- C7 (amended): the per-table output is sorted by count descending and
is a permutation of the unsorted per-table rows; rows with equal counts
are NOT guaranteed to keep their prior relative order (at the
counterexample input their order is reversed). -/
theorem per_table_sort_desc_perm :
    ∀ (chunker : Str → List Str) (sw : List Str) (name : Str) (rows : List SRow),
      (extractTable chunker sw name rows).Pairwise (fun a b => b.count ≤ a.count)
      ∧ extractTable chunker sw name rows
          ~ (csvDict chunker sw rows).map
              (fun e => ⟨e.2.1, str "NOUN_PHRASE", e.2.2, name⟩) := by
  intro chunker sw name rows
  unfold extractTable
  exact ⟨pdSortCountDesc_sorted _ _, pdSortCountDesc_perm _ _⟩

/-- C8: `strip_leading_stopwords` removes exactly the maximal leading run
of stop words from the whitespace-split word list (e.g. "the economic
growth" → "economic growth"); a chunk whose stripped phrase is empty is
silently discarded — it produces no entry and no error. -/
theorem leading_stopword_stripping_and_discard :
    (∀ (sw : List Str) (phrase : Str), ∃ pre rest,
        splitWs phrase = pre ++ rest
        ∧ (∀ w ∈ pre, strLower w ∈ sw)
        ∧ (∀ w, rest.head? = some w → strLower w ∉ sw)
        ∧ strip_leading_stopwords sw phrase = strJoinSpace rest)
    ∧ (∀ (sw : List Str) (c : Str), strip_leading_stopwords sw (strTrim c) = [] →
        processPhrase sw c = none)
    ∧ (∀ (sw : List Str) (c : Str) (cs : List Str), processPhrase sw c = none →
        occEntries sw (c :: cs) = occEntries sw cs)
    ∧ strip_leading_stopwords [str "the"] (str "the economic growth")
        = str "economic growth" := by
  refine ⟨?_, ?_, ?_, by decide⟩
  · intro sw phrase
    rcases stripWords_spec sw (splitWs phrase) with ⟨pre, rest, heq, hpre, hhead, hstrip⟩
    refine ⟨pre, rest, heq, hpre, hhead, ?_⟩
    unfold strip_leading_stopwords
    rw [hstrip]
  · intro sw c h
    unfold processPhrase
    by_cases ht : strTrim c = []
    · rw [if_pos ht]
    · rw [if_neg ht, if_pos h]
  · intro sw c cs h
    unfold occEntries
    rw [List.filterMap_cons, h]

/-- C8 witness: the chunk "the" (entirely a stop word) is processed to
nothing and contributes no entry. -/
theorem leading_stopword_stripping_and_discard_witness :
    processPhrase [str "the"] (str "the") = none
    ∧ occEntries [str "the"] [str "the", str "dog"] = occEntries [str "the"] [str "dog"] :=
  ⟨leading_stopword_stripping_and_discard.2.1 [str "the"] (str "the") (by decide),
   leading_stopword_stripping_and_discard.2.2.1 [str "the"] (str "the") [str "dog"]
     (by decide)⟩

/-- C9: the Merger fails with a reported error on an empty directory
(no silent empty output); an unparseable table is skipped and the run
continues, with the result determined by the parseable tables alone; but
if skipping leaves zero usable tables the merge fails. -/
theorem merger_empty_and_failure_handling :
    merge_csvs_by_phrase [] = Except.error (str "No CSV files found")
    ∧ (∀ files : List (Option MTable), files ≠ [] → (∀ f ∈ files, f = none) →
        merge_csvs_by_phrase files = Except.error (str "No objects to concatenate"))
    ∧ (∀ (files : List (Option MTable)) (t : MTable), some t ∈ files →
        ∃ out, merge_csvs_by_phrase files = Except.ok out)
    ∧ (∀ files files' : List (Option MTable), files ≠ [] → files' ≠ [] →
        files.filterMap (fun f => f.map prepTable)
          = files'.filterMap (fun f => f.map prepTable) →
        merge_csvs_by_phrase files = merge_csvs_by_phrase files') := by
  refine ⟨rfl, ?_, ?_, ?_⟩
  · intro files hne hall
    unfold merge_csvs_by_phrase
    rw [if_neg (fun hc => hne (List.isEmpty_iff.mp hc))]
    have hdfs : files.filterMap (fun f => f.map prepTable) = [] :=
      List.filterMap_eq_nil_iff.mpr (fun f hf => by rw [hall f hf]; rfl)
    rw [if_pos (List.isEmpty_iff.mpr hdfs)]
  · intro files t ht
    have h1 : files ≠ [] := List.ne_nil_of_mem ht
    have h2 : prepTable t ∈ files.filterMap (fun f => f.map prepTable) :=
      List.mem_filterMap.mpr ⟨some t, ht, rfl⟩
    have h3 : files.filterMap (fun f => f.map prepTable) ≠ [] := List.ne_nil_of_mem h2
    unfold merge_csvs_by_phrase
    rw [if_neg (fun hc => h1 (List.isEmpty_iff.mp hc)),
      if_neg (fun hc => h3 (List.isEmpty_iff.mp hc))]
    exact ⟨_, rfl⟩
  · intro files files' h1 h1' heq
    unfold merge_csvs_by_phrase
    rw [if_neg (fun hc => h1 (List.isEmpty_iff.mp hc)),
      if_neg (fun hc => h1' (List.isEmpty_iff.mp hc)), heq]

/-- C9 witness: a directory whose only table is unparseable fails; an
unparseable table next to a parseable one is skipped, the merge succeeds
and does not depend on where the bad file sits in the listing. -/
theorem merger_empty_and_failure_handling_witness :
    merge_csvs_by_phrase [none] = Except.error (str "No objects to concatenate")
    ∧ (∃ out, merge_csvs_by_phrase [none, some exTableC9] = Except.ok out)
    ∧ merge_csvs_by_phrase [none, some exTableC9]
        = merge_csvs_by_phrase [some exTableC9, none] :=
  ⟨merger_empty_and_failure_handling.2.1 [none] (by decide) (by decide),
   merger_empty_and_failure_handling.2.2.1 [none, some exTableC9] exTableC9 (by decide),
   merger_empty_and_failure_handling.2.2.2 [none, some exTableC9] [some exTableC9, none]
     (by decide) (by decide) (by decide)⟩

/-- C10 counterexample: the claim says a null-title row with present
sentence text contributes to NO output table, but `total_sentences`
(line 86, computed after dropping only null-sentence rows) counts it and
is written to the summary output table: inserting the row changes the
reported sentence count. -/
theorem null_key_row_counted_in_summary :
    exRowBad.title = none
    ∧ totalSentences ([] ++ exRowBad :: exRowsC7) ≠ totalSentences ([] ++ exRowsC7) := by
  decide

/-- C10 (amended, implicit): an input row whose title or date is null is
silently excluded from article grouping even when its sentence text is
present — it contributes nothing to any phrase count, to the article
count, or to the per-table phrase output; it is not excluded from every
output, though: with sentence text present it still counts toward the
`total_sentences` statistic reported in the summary table. -/
theorem null_title_or_date_rows_excluded :
    ∀ (chunker : Str → List Str) (sw : List Str) (name : Str)
      (l₁ l₂ : List SRow) (r : SRow),
      (r.title = none ∨ r.date = none) →
      extractTable chunker sw name (l₁ ++ r :: l₂) = extractTable chunker sw name (l₁ ++ l₂)
      ∧ articleCount (l₁ ++ r :: l₂) = articleCount (l₁ ++ l₂)
      ∧ ((r.sentence.isSome : Bool) = true →
          totalSentences (l₁ ++ r :: l₂) = totalSentences (l₁ ++ l₂) + 1) := by
  intro chunker sw name l₁ l₂ r hr
  by_cases hs : (r.sentence.isSome : Bool) = true
  · have hfilA : (l₁ ++ r :: l₂).filter (fun r => r.sentence.isSome)
        = l₁.filter (fun r => r.sentence.isSome) ++ r :: l₂.filter (fun r => r.sentence.isSome) := by
      rw [List.filter_append, List.filter_cons, hs]
      simp
    have hkeys : articleKeys ((l₁ ++ r :: l₂).filter (fun r => r.sentence.isSome))
        = articleKeys ((l₁ ++ l₂).filter (fun r => r.sentence.isSome)) := by
      unfold articleKeys articleKeyPairs
      rw [hfilA, List.filter_append,
        filterMap_append_middle _ _ _ _ (rowKey_eq_none r hr)]
    have hsent : sentencesFor ((l₁ ++ r :: l₂).filter (fun r => r.sentence.isSome))
        = sentencesFor ((l₁ ++ l₂).filter (fun r => r.sentence.isSome)) := by
      funext k
      unfold sentencesFor
      have hq : (fun r' : SRow => decide (r'.title = some k.1 ∧ r'.date = some k.2)) r
          = false := by
        rcases hr with h | h <;> simp [h]
      rw [hfilA, List.filter_append l₁ l₂,
        filter_append_middle (fun r' : SRow => decide (r'.title = some k.1 ∧ r'.date = some k.2))
          (l₁.filter (fun r => r.sentence.isSome)) (l₂.filter (fun r => r.sentence.isSome)) r hq]
    refine ⟨?_, ?_, ?_⟩
    · unfold extractTable csvDict
      rw [hkeys, hsent]
    · unfold articleCount
      rw [hkeys]
    · intro _
      unfold totalSentences
      rw [hfilA, List.filter_append]
      simp [List.length_append]
      omega
  · have hsf : (fun r : SRow => (r.sentence.isSome : Bool)) r = false := by
      simpa using hs
    have hfil : (l₁ ++ r :: l₂).filter (fun r => r.sentence.isSome)
        = (l₁ ++ l₂).filter (fun r => r.sentence.isSome) :=
      filter_append_middle _ _ _ _ hsf
    refine ⟨?_, ?_, ?_⟩
    · unfold extractTable csvDict
      rw [hfil]
    · unfold articleCount
      rw [hfil]
    · intro hsome
      exact absurd hsome hs

/-- C10 witness: a null-title row with present sentence text changes
neither the per-table output nor the article count, yet raises the
summary sentence count by one. -/
theorem null_title_or_date_rows_excluded_witness :
    extractTable exChunkerId [] (str "src") ([] ++ exRowBad :: exRowsC7)
        = extractTable exChunkerId [] (str "src") ([] ++ exRowsC7)
    ∧ articleCount ([] ++ exRowBad :: exRowsC7) = articleCount ([] ++ exRowsC7)
    ∧ totalSentences ([] ++ exRowBad :: exRowsC7) = totalSentences ([] ++ exRowsC7) + 1 :=
  have h := null_title_or_date_rows_excluded exChunkerId [] (str "src") [] exRowsC7 exRowBad
    (Or.inl rfl)
  ⟨h.1, h.2.1, h.2.2 (by decide)⟩
